import Mathlib

/-!
Shallow embedding of the `bad-apple` repository: `src/generate.py` (the ASCII
encoding pipeline: glyph ramp, per-frame transcoding, order-preserving writer)
and `src/display.py` (artifact decoding and the playback scheduler).  Strings
are modelled as `List Char`, machine integers as `Nat`, wall-clock instants as
`ℚ`, and Python exceptions as `Except Unit`.
-/

/-- The whitespace characters stripped by Python `str.rstrip()` / `str.strip()`
with no argument. -/
def pyIsSpace (c : Char) : Bool :=
  (c == ' ') || (c == '\t') || (c == '\n') || (c == '\r') || (c == '\x0b') || (c == '\x0c')

/-- Python `s.rstrip()` on a string represented as a list of characters. -/
def rstrip (l : List Char) : List Char :=
  (l.reverse.dropWhile pyIsSpace).reverse

/-- Python `s.lstrip()`. -/
def lstrip (l : List Char) : List Char :=
  l.dropWhile pyIsSpace

/-- Python `s.strip()`. -/
def pyStrip (l : List Char) : List Char :=
  lstrip (rstrip l)

/-- Helper for `pyReadLines`; `cur` holds the characters of the current line
in reverse order. -/
def pyReadLinesAux (cur : List Char) : List Char → List (List Char)
  | [] => if cur.isEmpty then [] else [cur.reverse]
  | c :: cs =>
    if c = '\n' then (cur.reverse ++ ['\n']) :: pyReadLinesAux [] cs
    else pyReadLinesAux (c :: cur) cs

/-- Python `file.readlines()`: split after every `'\n'`, keeping the newline
at the end of each line; a file ending in `'\n'` produces no empty last line. -/
def pyReadLines (s : List Char) : List (List Char) :=
  pyReadLinesAux [] s

/-- Helper for `pySplitNL`. -/
def pySplitNLAux (cur : List Char) : List Char → List (List Char)
  | [] => [cur.reverse]
  | c :: cs =>
    if c = '\n' then cur.reverse :: pySplitNLAux [] cs
    else pySplitNLAux (c :: cur) cs

/-- Python `s.split('\n')`: split at every newline, keeping empty pieces. -/
def pySplitNL (s : List Char) : List (List Char) :=
  pySplitNLAux [] s

/-- Python `line.split(":", 1)[1]`: everything after the first colon.  In the
decoder this is only reached on lines that start with a key containing `':'`. -/
def afterFirstColon (l : List Char) : List Char :=
  (l.dropWhile (fun c => c != ':')).drop 1

/-- Embedding of `ASCII_CHARS = "@%#*+=-:. "` (generate.py, line 19): the fixed
dark-to-light ramp, ten characters long. -/
def ASCII_CHARS : List Char := "@%#*+=-:. ".data

/-- The ramp index computed inside `frame_to_ascii`:
`min(len(ASCII_CHARS) - 1, pixel_value // (256 // len(ASCII_CHARS)))`.
Both `//` are Python integer (floor) division, i.e. `Nat` division. -/
def glyphIndex (pixel : Nat) : Nat :=
  min (ASCII_CHARS.length - 1) (pixel / (256 / ASCII_CHARS.length))

/-- The glyph chosen for one luminance sample; the `min` keeps the index in
bounds, so the default of `getD` is never used. -/
def asciiCharFor (pixel : Nat) : Char :=
  ASCII_CHARS.getD (glyphIndex pixel) ' '

/-- Modelled from the spec: the glyph-mapper index as the spec words it, with
`256/N` read as exact (non-truncated) division, i.e. the ramp character at
`min(N-1, floor(sample / (256/N))) = min(N-1, sample * N // 256)`. -/
def specGlyphIndex (pixel : Nat) : Nat :=
  min (ASCII_CHARS.length - 1) (pixel * ASCII_CHARS.length / 256)

/-- One decimal digit as a character. -/
def digitToChar (d : Nat) : Char :=
  match d with
  | 0 => '0' | 1 => '1' | 2 => '2' | 3 => '3' | 4 => '4'
  | 5 => '5' | 6 => '6' | 7 => '7' | 8 => '8' | _ => '9'

/-- Decimal digit value of a character (meaningful only on `'0'`–`'9'`). -/
def charToDigit (c : Char) : Nat :=
  c.toNat - 48

/-- Is `c` one of `'0'`–`'9'`? -/
def isDigitChar (c : Char) : Bool :=
  ('0' ≤ c) && (c ≤ '9')

/-- Big-endian decimal digits of `n`; `fuel ≥ n` makes the recursion total.
The empty list is returned for `n = 0`. -/
def natDigitsAux : Nat → Nat → List Nat
  | 0, _ => []
  | _, 0 => []
  | fuel + 1, n => natDigitsAux fuel (n / 10) ++ [n % 10]

/-- The decimal rendering of `n`, as Python `f"{n}"` produces it. -/
def natToChars (n : Nat) : List Char :=
  if n = 0 then ['0'] else (natDigitsAux n n).map digitToChar

/-- Value of a big-endian digit list. -/
def digitsVal (l : List Nat) : Nat :=
  l.foldl (fun a d => a * 10 + d) 0

/-- Python `int(s)` on an already-stripped string: an optional `'+'` sign
followed by one or more decimal digits; anything else raises `ValueError`
(modelled as `none`).  Negative values never occur in this program's
artifacts, so the `'-'` branch is not modelled. -/
def pyInt (l : List Char) : Option Nat :=
  let ds := match l with
    | '+' :: rest => rest
    | other => other
  if ds.isEmpty then none
  else if ds.all isDigitChar then some (digitsVal (ds.map charToDigit))
  else none

/-- Embedding of `frame_to_ascii(frame, width)` (generate.py, lines 51–68).  The `None`
check returns an empty string; on an actual frame the body (cv2 scaling,
grayscale reduction and the per-pixel `ASCII_CHARS` lookup, which may raise
on a corrupt frame) is abstracted as the collaborator `body`. -/
def frame_to_ascii {α : Type} (body : α → Except Unit (List Char)) :
    Option α → Except Unit (List Char)
  | none => Except.ok []
  | some f => body f

/-- Helper for `chunkList`; `fuel ≥ l.length` makes the recursion total when
`w > 0`, since every step drops at least one character. -/
def chunkAux (w : Nat) : Nat → List Char → List (List Char)
  | _, [] => []
  | 0, _ => []
  | fuel + 1, l => l.take w :: chunkAux w fuel (l.drop w)

/-- Embedding of `[ascii_art[i:i + width] for i in range(0, len(ascii_art), width)]`
(generate.py, line 74), for `width > 0`. -/
def chunkList (w : Nat) (l : List Char) : List (List Char) :=
  chunkAux w l.length l

/-- The text one frame contributes to the artifact
(`"\n".join(ascii_art_lines) + "\n" + "=" * width + "\n"`,
generate.py, line 79), as a function of the chunked rows. -/
def frameArt (rows : List (List Char)) (width : Nat) : List Char :=
  List.intercalate ['\n'] rows ++ ['\n'] ++ List.replicate width '=' ++ ['\n']

/-- Embedding of `process_frame(frame_idx, width, frame, total_frames)` (generate.py,
lines 70–82).  `width = 0` makes Python's `range(0, len, 0)` raise
`ValueError`, which the `except` turns into `(frame_idx, "")`, exactly as it
does when `body` (the cv2-dependent transcode) raises. -/
def process_frame {α : Type} (body : α → Except Unit (List Char))
    (frame_idx width : Nat) (frame : Option α) (total_frames : Nat) : Nat × List Char :=
  if width = 0 then (frame_idx, [])
  else
    match frame_to_ascii body frame with
    | Except.error _ => (frame_idx, [])
    | Except.ok art => (frame_idx, frameArt (chunkList width art) width)

/-- The writer's reassembly buffer (Python dict `frames`), as an association
list.  `dictInsert` removes any old binding first, so keys are always
distinct and the list behaves exactly like a Python dict. -/
def WriterDict : Type := List (Nat × List Char)

/-- Python `frames[idx]` lookup / `idx in frames`. -/
def dictLookup (k : Nat) : List (Nat × List Char) → Option (List Char)
  | [] => none
  | (k', v) :: rest => if k = k' then some v else dictLookup k rest

/-- Remove every binding of `k` (at most one arises). -/
def dictRemove (k : Nat) (d : List (Nat × List Char)) : List (Nat × List Char) :=
  d.filter (fun p => p.1 != k)

/-- Python `frames[idx] = art`. -/
def dictInsert (k : Nat) (v : List Char) (d : List (Nat × List Char)) :
    List (Nat × List Char) :=
  (k, v) :: dictRemove k d

/-- The inner `while frames_written in frames:` drain of `write_ascii_to_file`
(generate.py, lines 102–104): pop and emit buffered frames at consecutive
indices starting at `written`.  Each successful step removes one buffer entry,
so `fuel = d.length` always suffices. -/
def writerDrain : Nat → List (Nat × List Char) → Nat → List (List Char) →
    List (Nat × List Char) × Nat × List (List Char)
  | 0, d, written, out => (d, written, out)
  | fuel + 1, d, written, out =>
    match dictLookup written d with
    | none => (d, written, out)
    | some art => writerDrain fuel (dictRemove written d) (written + 1) (out ++ [art])

/-- The body of `write_ascii_to_file`'s `while frames_written < total_frames:`
loop (generate.py, lines 92–105).  `arrivals` is the sequence of results the
queue delivers, `none` being the `(None, None)` end-of-processing sentinel
(skipped by `if frame_idx is None: continue`).  Once `arrivals` is exhausted
every `queue.get(timeout=1)` raises `Empty` and the real loop spins forever;
the model then returns the final state, so a final `written < total` means the
real writer never terminates. -/
def writerLoop : List (Option (Nat × List Char)) → List (Nat × List Char) →
    Nat → Nat → List (List Char) →
    List (Nat × List Char) × Nat × List (List Char)
  | arrivals, d, written, total, out =>
    if total ≤ written then (d, written, out)
    else
      match arrivals with
      | [] => (d, written, out)
      | none :: rest => writerLoop rest d written total out
      | some (idx, art) :: rest =>
        let d1 := dictInsert idx art d
        let s2 := writerDrain d1.length d1 written out
        writerLoop rest s2.1 s2.2.1 total s2.2.2

/-- The metadata header written by `write_ascii_to_file` (generate.py,
lines 86–89): the resolution line, the FPS line, and the blank-line /
80-`'='` rule delimiter. -/
def artifactHeader (res : List Char) (fps : Nat) : List Char :=
  "Video Resolution: ".data ++ res ++ ['\n'] ++
  "Video FPS: ".data ++ natToChars fps ++ ['\n'] ++
  ['\n'] ++ List.replicate 80 '=' ++ ['\n', '\n']

/-- Embedding of `write_ascii_to_file(file_path, queue, total_frames, video_metadata)`
(generate.py, lines 84–105): the full character content of the written file —
header first, then the frames the ordering loop emits, concatenated. -/
def write_ascii_to_file (arrivals : List (Option (Nat × List Char)))
    (total_frames : Nat) (res : List Char) (fps : Nat) : List Char :=
  artifactHeader res fps ++ (writerLoop arrivals [] 0 total_frames []).2.2.flatten

/-- The arrival sequence `video_to_ascii` produces when every worker finishes
in submission order: frame `i` carries art `g i`, for `i` in `order`,
followed by the `(None, None)` sentinel. -/
def arrivalsFor (order : List Nat) (g : Nat → List Char) :
    List (Option (Nat × List Char)) :=
  order.map (fun i => some (i, g i)) ++ [none]

/-- The `{resolution, fps}` metadata dict built by `read_ascii_frames`;
either key may be missing. -/
structure VideoMetadata where
  resolution : Option (List Char)
  fps : Option Nat
deriving DecidableEq, Repr

/-- The decoder's loop state: the `parsing_metadata` flag, the metadata dict,
the finished frames, and the rows of the frame being collected. -/
structure RafState where
  parsingMetadata : Bool
  meta : VideoMetadata
  frames : List (List Char)
  frameLines : List (List Char)
deriving DecidableEq, Repr

/-- The decoder's initial state. -/
def rafInit : RafState :=
  ⟨true, ⟨none, none⟩, [], []⟩

/-- One iteration of the `for line in lines:` loop of `read_ascii_frames`
(display.py, lines 17–39).  A non-numeric FPS value raises `ValueError`,
modelled as `Except.error`. -/
def rafStep (st : RafState) (line : List Char) : Except Unit RafState :=
  let l := rstrip line
  if l = [] then Except.ok { st with parsingMetadata := false }
  else if st.parsingMetadata then
    if List.isPrefixOf "Video Resolution:".data l then
      Except.ok { st with meta.resolution := some (pyStrip (afterFirstColon l)) }
    else if List.isPrefixOf "Video FPS:".data l then
      match pyInt (pyStrip (afterFirstColon l)) with
      | some v => Except.ok { st with meta.fps := some v }
      | none => Except.error ()
    else Except.ok st
  else
    if List.isPrefixOf (List.replicate 80 '=') l then
      if st.frameLines = [] then Except.ok st
      else Except.ok { st with
        frames := st.frames ++ [List.intercalate ['\n'] st.frameLines],
        frameLines := [] }
    else Except.ok { st with frameLines := st.frameLines ++ [l] }

/-- Embedding of `read_ascii_frames(file_path)` (display.py, lines 4–50) applied to the
character content of the file: fold the per-line step over `readlines()`,
then append the last frame if any rows remain.  Returns the frames (each the
`'\n'.join` of its collected rows) and the metadata. -/
def read_ascii_frames (file : List Char) :
    Except Unit (List (List Char) × VideoMetadata) := do
  let st ← (pyReadLines file).foldlM rafStep rafInit
  let frames := if st.frameLines = [] then st.frames
    else st.frames ++ [List.intercalate ['\n'] st.frameLines]
  pure (frames, st.meta)

/-- Embedding of `metadata.get('fps', 24)` (display.py, line 97): the caller-supplied
default is used when the artifact header carried no FPS. -/
def playbackFps (m : VideoMetadata) (dflt : Nat) : Nat :=
  m.fps.getD dflt

instance instDecEqExceptRaf :
    DecidableEq (Except Unit (List (List Char) × VideoMetadata)) := fun a b =>
  match a, b with
  | Except.ok x, Except.ok y =>
    if h : x = y then isTrue (by rw [h])
    else isFalse (fun hc => h (Except.ok.inj hc))
  | Except.error x, Except.error y =>
    if h : x = y then isTrue (by rw [h])
    else isFalse (fun hc => h (Except.error.inj hc))
  | Except.ok _, Except.error _ => isFalse (fun hc => Except.noConfusion hc)
  | Except.error _, Except.ok _ => isFalse (fun hc => Except.noConfusion hc)

/-- Embedding of `frame_duration = 1 / fps` (display.py, line 59). -/
def frameDuration (fps : Nat) : ℚ :=
  1 / (fps : ℚ)

/-- Embedding of `time_to_sleep = expected_time - elapsed_time - render_time`
(display.py, lines 79–81), for the frame index `i` about to be advanced from. -/
def timeToSleep (i fps : Nat) (elapsed render : ℚ) : ℚ :=
  (i + 1) * frameDuration fps - elapsed - render

/-- The frame-index transition of the playback loop (display.py, lines
83–88): sleep and advance by one when ahead of schedule, otherwise jump to
`int(elapsed_time // frame_duration)`. -/
def nextFrameIndex (i fps : Nat) (elapsed render : ℚ) : Nat :=
  if 0 < timeToSleep i fps elapsed render then i + 1
  else (⌊elapsed / frameDuration fps⌋).toNat

/-- The rows put on screen for one frame (display.py, lines 69–72): split the
frame at newlines, keep the first `termHeight` rows, truncate each to
`termWidth` columns. -/
def renderFrame (termHeight termWidth : Nat) (frame : List Char) :
    List (List Char) :=
  ((pySplitNL frame).take termHeight).map (fun l => l.take termWidth)

/-- The `while frame_index < len(frames):` loop of `display_ascii_animation`
(display.py, lines 63–91), over an abstract clock and keyboard.  `clock n` is
the value the `n`-th call of `time.time()` returns (call 0 is `start_time`;
iteration `j` makes calls `3*j+1 .. 3*j+3`); `getch j` is whether iteration
`j`'s non-blocking `stdscr.getch()` reports a key press.  The screen
dimensions `termH`/`termW` were read before the loop and never change.
Returns the `(frame_index, rendered rows)` pairs in display order; `fuel`
bounds the number of iterations modelled. -/
def displayLoop (fps : Nat) (frames : List (List Char)) (termH termW : Nat)
    (clock : Nat → ℚ) (getch : Nat → Bool) :
    Nat → Nat → Nat → List (Nat × List (List Char)) → List (Nat × List (List Char))
  | 0, _, _, acc => acc
  | fuel + 1, i, j, acc =>
    if i < frames.length then
      let rendered := renderFrame termH termW (frames.getD i [])
      let renderTime := clock (3 * j + 2) - clock (3 * j + 1)
      let elapsed := clock (3 * j + 3) - clock 0
      let i' := nextFrameIndex i fps elapsed renderTime
      let acc' := acc ++ [(i, rendered)]
      if getch j then acc' else displayLoop fps frames termH termW clock getch fuel i' (j + 1) acc'
    else acc

/-- Embedding of `display_ascii_animation(stdscr, frames, fps)` (display.py, lines 52–91):
`terminal_height, terminal_width = stdscr.getmaxyx()` runs once, before the
loop, so only `dims 0` — the dimensions at the first (and only) `getmaxyx()`
call — is ever consulted.  `dims k` is what the terminal would report at a
`k`-th call. -/
def display_ascii_animation (fps : Nat) (frames : List (List Char))
    (dims : Nat → Nat × Nat) (clock : Nat → ℚ) (getch : Nat → Bool)
    (fuel : Nat) : List (Nat × List (List Char)) :=
  displayLoop fps frames (dims 0).1 (dims 0).2 clock getch fuel 0 0 []

section DictLemmas

theorem dictRemove_cons (k a : Nat) (b : List Char) (t : List (Nat × List Char)) :
    dictRemove k ((a, b) :: t)
      = if a = k then dictRemove k t else (a, b) :: dictRemove k t := by
  by_cases h : a = k <;> simp [dictRemove, List.filter_cons, h]

theorem dictLookup_cons (k' a : Nat) (b : List Char) (t : List (Nat × List Char)) :
    dictLookup k' ((a, b) :: t) = if k' = a then some b else dictLookup k' t := rfl

theorem dictLookup_remove (k' k : Nat) (d : List (Nat × List Char)) :
    dictLookup k' (dictRemove k d) = if k' = k then none else dictLookup k' d := by
  induction d with
  | nil => by_cases h : k' = k <;> simp [dictRemove, dictLookup, h]
  | cons p t ih =>
    obtain ⟨a, b⟩ := p
    rw [dictRemove_cons]
    by_cases hak : a = k
    · rw [if_pos hak, ih, dictLookup_cons]
      subst hak
      by_cases hk : k' = a <;> simp [hk]
    · rw [if_neg hak, dictLookup_cons, ih, dictLookup_cons]
      by_cases hk : k' = a
      · have hkk : k' ≠ k := fun hc => hak (hk.symm.trans hc)
        simp [hk, hkk, hak]
      · simp [hk]

theorem dictLookup_insert_self (k : Nat) (v : List Char) (d : List (Nat × List Char)) :
    dictLookup k (dictInsert k v d) = some v := by
  simp [dictInsert, dictLookup]

theorem dictLookup_insert_ne (k' k : Nat) (v : List Char) (d : List (Nat × List Char))
    (h : k' ≠ k) : dictLookup k' (dictInsert k v d) = dictLookup k' d := by
  rw [dictInsert, dictLookup_cons, dictLookup_remove]
  simp [h]

theorem mem_of_dictLookup {k : Nat} {v : List Char} {d : List (Nat × List Char)}
    (h : dictLookup k d = some v) : (k, v) ∈ d := by
  induction d with
  | nil => simp [dictLookup] at h
  | cons p t ih =>
    obtain ⟨a, b⟩ := p
    rw [dictLookup_cons] at h
    by_cases hk : k = a
    · subst hk
      simp at h
      simp [h]
    · rw [if_neg hk] at h
      simp [ih h]

theorem dictRemove_subset {p : Nat × List Char} {k : Nat} {d : List (Nat × List Char)}
    (h : p ∈ dictRemove k d) : p ∈ d :=
  List.mem_of_mem_filter h

theorem mem_dictInsert {p : Nat × List Char} {k : Nat} {v : List Char}
    {d : List (Nat × List Char)} (h : p ∈ dictInsert k v d) :
    p = (k, v) ∨ p ∈ d := by
  rw [dictInsert, List.mem_cons] at h
  rcases h with h | h
  · exact Or.inl h
  · exact Or.inr (dictRemove_subset h)

theorem dictRemove_length_le (k : Nat) (d : List (Nat × List Char)) :
    (dictRemove k d).length ≤ d.length :=
  List.length_filter_le _ _

theorem dictRemove_length_lt {k : Nat} {v : List Char} {d : List (Nat × List Char)}
    (h : dictLookup k d = some v) : (dictRemove k d).length < d.length := by
  induction d with
  | nil => simp [dictLookup] at h
  | cons p t ih =>
    obtain ⟨a, b⟩ := p
    rw [dictLookup_cons] at h
    rw [dictRemove_cons]
    by_cases hk : a = k
    · rw [if_pos hk]
      have := dictRemove_length_le k t
      simp only [List.length_cons]
      omega
    · rw [if_neg hk]
      rw [if_neg (fun hc : k = a => hk hc.symm)] at h
      have := ih h
      simp only [List.length_cons]
      omega

end DictLemmas

/-- Full behaviour of the writer's inner drain: starting from a buffer whose
keys are exactly the already-arrived indices (`∈ S`) at or above `written`,
and an output holding `g 0 .. g (written-1)`, draining emits the maximal
contiguous run of buffered indices in ascending order. -/
theorem writerDrain_spec (g : Nat → List Char) (S : List Nat) :
    ∀ (fuel : Nat) (d : List (Nat × List Char)) (w : Nat) (out : List (List Char)),
      d.length ≤ fuel →
      (∀ p ∈ d, p.2 = g p.1) →
      (∀ k, (dictLookup k d).isSome ↔ (k ∈ S ∧ w ≤ k)) →
      out = (List.range w).map g →
      w ≤ (writerDrain fuel d w out).2.1 ∧
      (writerDrain fuel d w out).2.2
        = (List.range (writerDrain fuel d w out).2.1).map g ∧
      (∀ p ∈ (writerDrain fuel d w out).1, p.2 = g p.1) ∧
      (∀ k, (dictLookup k (writerDrain fuel d w out).1).isSome
        ↔ (k ∈ S ∧ (writerDrain fuel d w out).2.1 ≤ k)) ∧
      (∀ k, w ≤ k → k < (writerDrain fuel d w out).2.1 → k ∈ S) ∧
      dictLookup (writerDrain fuel d w out).2.1 (writerDrain fuel d w out).1 = none := by
  intro fuel
  induction fuel with
  | zero =>
    intro d w out hlen hval hchar hout
    have hd : d = [] := List.length_eq_zero.mp (Nat.le_zero.mp hlen)
    subst hd
    exact ⟨le_refl w, hout, hval, hchar,
      fun k h1 h2 => absurd (lt_of_le_of_lt h1 h2) (lt_irrefl w), rfl⟩
  | succ fuel ih =>
    intro d w out hlen hval hchar hout
    cases hl : dictLookup w d with
    | none =>
      have heq : writerDrain (fuel + 1) d w out = (d, w, out) := by
        conv_lhs => unfold writerDrain
        rw [hl]
      rw [heq]
      exact ⟨le_refl w, hout, hval, hchar,
        fun k h1 h2 => absurd (lt_of_le_of_lt h1 h2) (lt_irrefl w), hl⟩
    | some a =>
      have ha : a = g w := hval _ (mem_of_dictLookup hl)
      have heq : writerDrain (fuel + 1) d w out
          = writerDrain fuel (dictRemove w d) (w + 1) (out ++ [a]) := by
        conv_lhs => unfold writerDrain
        rw [hl]
      rw [heq]
      have hlen2 : (dictRemove w d).length ≤ fuel := by
        have := dictRemove_length_lt hl
        omega
      have hval2 : ∀ p ∈ dictRemove w d, p.2 = g p.1 :=
        fun p hp => hval p (dictRemove_subset hp)
      have hchar2 : ∀ k, (dictLookup k (dictRemove w d)).isSome
          ↔ (k ∈ S ∧ w + 1 ≤ k) := by
        intro k
        rw [dictLookup_remove]
        by_cases hk : k = w
        · subst hk
          simp
        · rw [if_neg hk, hchar k]
          constructor
          · rintro ⟨h1, h2⟩
            exact ⟨h1, by omega⟩
          · rintro ⟨h1, h2⟩
            exact ⟨h1, by omega⟩
      have hout2 : out ++ [a] = (List.range (w + 1)).map g := by
        rw [List.range_succ, List.map_append, ← hout, ha]
        rfl
      obtain ⟨c1, c2, c3, c4, c5, c6⟩ :=
        ih (dictRemove w d) (w + 1) (out ++ [a]) hlen2 hval2 hchar2 hout2
      refine ⟨le_trans (Nat.le_succ w) c1, c2, c3, c4, ?_, c6⟩
      intro k h1 h2
      by_cases hk : k = w
      · subst hk
        exact ((hchar k).mp (by simp [hl])).1
      · exact c5 k (by omega) h2

theorem writerLoop_exit (arrivals : List (Option (Nat × List Char)))
    (d : List (Nat × List Char)) (w total : Nat) (out : List (List Char))
    (h : total ≤ w) : writerLoop arrivals d w total out = (d, w, out) := by
  rw [writerLoop.eq_def]
  dsimp only
  rw [if_pos h]

theorem writerLoop_nil (d : List (Nat × List Char)) (w total : Nat)
    (out : List (List Char)) : writerLoop [] d w total out = (d, w, out) := by
  rw [writerLoop.eq_def]
  dsimp only
  split <;> rfl

theorem writerLoop_none_cons (rest : List (Option (Nat × List Char)))
    (d : List (Nat × List Char)) (w total : Nat) (out : List (List Char)) :
    writerLoop (none :: rest) d w total out = writerLoop rest d w total out := by
  rw [writerLoop.eq_def]
  dsimp only
  by_cases h : total ≤ w
  · rw [if_pos h, writerLoop_exit rest d w total out h]
  · rw [if_neg h]

theorem writerLoop_cons_some (idx : Nat) (art : List Char)
    (rest : List (Option (Nat × List Char))) (d : List (Nat × List Char))
    (w total : Nat) (out : List (List Char)) (h : ¬ total ≤ w) :
    writerLoop (some (idx, art) :: rest) d w total out
      = writerLoop rest
          (writerDrain (dictInsert idx art d).length (dictInsert idx art d) w out).1
          (writerDrain (dictInsert idx art d).length (dictInsert idx art d) w out).2.1
          total
          (writerDrain (dictInsert idx art d).length (dictInsert idx art d) w out).2.2 := by
  rw [writerLoop.eq_def]
  dsimp only
  rw [if_neg h]

/-- Central invariant of `write_ascii_to_file`'s ordering loop: if the indices
still to arrive (`todo`) together with those already processed (`S`) form a
permutation of `0..n-1`, and the buffer/output state satisfies the writer's
invariant, then consuming the remaining arrivals ends with all `n` frames
emitted in ascending index order. -/
theorem writerLoop_spec (n : Nat) (g : Nat → List Char) :
    ∀ (todo S : List Nat) (d : List (Nat × List Char)) (w : Nat)
      (out : List (List Char)),
      (S ++ todo).Perm (List.range n) →
      (∀ p ∈ d, p.2 = g p.1) →
      (∀ k, (dictLookup k d).isSome ↔ (k ∈ S ∧ w ≤ k)) →
      (∀ j, j < w → j ∈ S) →
      dictLookup w d = none →
      out = (List.range w).map g →
      (writerLoop (todo.map (fun i => some (i, g i)) ++ [none]) d w n out).2.1 = n ∧
      (writerLoop (todo.map (fun i => some (i, g i)) ++ [none]) d w n out).2.2
        = (List.range n).map g := by
  intro todo
  induction todo with
  | nil =>
    intro S d w out hperm hval hchar hlow hnone hout
    rw [List.append_nil] at hperm
    have hle : w ≤ n := by
      by_contra hc
      push_neg at hc
      have h1 : n ∈ S := hlow n hc
      have h2 : n ∈ List.range n := hperm.mem_iff.mp h1
      simp at h2
    have hze : w ∉ S := by
      intro hmem
      have h1 : (dictLookup w d).isSome := (hchar w).mpr ⟨hmem, le_refl w⟩
      rw [hnone] at h1
      simp at h1
    have hwn : w = n := by
      by_contra hc
      have hlt : w < n := lt_of_le_of_ne hle hc
      exact hze (hperm.mem_iff.mpr (List.mem_range.mpr hlt))
    subst hwn
    rw [List.map_nil, List.nil_append, writerLoop_none_cons, writerLoop_nil]
    exact ⟨rfl, hout⟩
  | cons t rest ih =>
    intro S d w out hperm hval hchar hlow hnone hout
    by_cases hnw : n ≤ w
    · have hle : w ≤ n := by
        by_contra hc
        push_neg at hc
        have h1 : n ∈ S := hlow n hc
        have h2 : n ∈ List.range n := hperm.mem_iff.mp (by simp [h1])
        simp at h2
      have hwn : w = n := le_antisymm hle hnw
      rw [writerLoop_exit _ _ _ _ _ hnw]
      subst hwn
      exact ⟨rfl, hout⟩
    · have hperm' : ((S ++ [t]) ++ rest).Perm (List.range n) := by
        rw [List.append_assoc, List.singleton_append]
        exact hperm
      have hnodup : (S ++ t :: rest).Nodup :=
        hperm.nodup_iff.mpr (List.nodup_range n)
      have htS : t ∉ S := by
        intro hmem
        have hd := List.disjoint_of_nodup_append hnodup
        exact hd hmem (by simp)
      have hwt : w ≤ t := by
        by_contra hc
        push_neg at hc
        exact htS (hlow t hc)
      have hval1 : ∀ p ∈ dictInsert t (g t) d, p.2 = g p.1 := by
        intro p hp
        rcases mem_dictInsert hp with h | h
        · rw [h]
        · exact hval p h
      have hchar1 : ∀ k, (dictLookup k (dictInsert t (g t) d)).isSome
          ↔ (k ∈ S ++ [t] ∧ w ≤ k) := by
        intro k
        by_cases hk : k = t
        · subst hk
          rw [dictLookup_insert_self]
          simp [hwt]
        · rw [dictLookup_insert_ne _ _ _ _ hk, hchar k]
          simp only [List.mem_append, List.mem_singleton, hk, or_false]
      obtain ⟨c1, c2, c3, c4, c5, c6⟩ :=
        writerDrain_spec g (S ++ [t]) (dictInsert t (g t) d).length
          (dictInsert t (g t) d) w out (le_refl _) hval1 hchar1 hout
      rw [List.map_cons, List.cons_append, writerLoop_cons_some _ _ _ _ _ _ _ hnw]
      apply ih (S ++ [t]) _ _ _ hperm' c3 c4 ?_ c6 c2
      intro j hj
      by_cases hjw : j < w
      · simp [List.mem_append, hlow j hjw]
      · push_neg at hjw
        exact c5 j hjw hj

/-- C1 (amended): when the delivered transcode results carry exactly the
indices `0..total_frames-1` — i.e. `frame_step = 1` and every frame was read —
then for every arrival order (any permutation of worker completion order) the
writer emits all frames, in ascending index order.  As stated the claim is
false: `video_to_ascii` submits raw video indices, so any index gap (stride
`> 1` or a skipped frame) leaves the writer stuck below `total_frames`. -/
theorem writer_order_needs_contiguous_indices (n : Nat) (g : Nat → List Char)
    (order : List Nat) (h : order.Perm (List.range n)) :
    (writerLoop (arrivalsFor order g) [] 0 n []).2.2 = (List.range n).map g ∧
    (writerLoop (arrivalsFor order g) [] 0 n []).2.1 = n := by
  have hmain := writerLoop_spec n g order [] [] 0 []
    (by simpa using h) (by simp) (by simp [dictLookup])
    (fun j hj => absurd hj (Nat.not_lt_zero j)) rfl (by simp)
  exact ⟨hmain.2, hmain.1⟩

/-- Witness for C1's amended theorem at the spec's own scenario: results for
indices `[2, 0, 1]` arriving in that order are emitted as `[0, 1, 2]`. -/
theorem writer_order_contiguous_witness :
    ([2, 0, 1] : List Nat).Perm (List.range 3) ∧
    ((writerLoop (arrivalsFor [2, 0, 1] (fun i => [digitToChar i])) [] 0 3 []).2.2
        = (List.range 3).map (fun i => [digitToChar i]) ∧
      (writerLoop (arrivalsFor [2, 0, 1] (fun i => [digitToChar i])) [] 0 3 []).2.1 = 3) :=
  ⟨by decide, writer_order_needs_contiguous_indices 3 (fun i => [digitToChar i])
      [2, 0, 1] (by decide)⟩

/-- Counterexample to C1 as stated: a stride-2 run over a 3-frame video
(`frame_indices = [0, 2]`, `total_frames = 2`) delivers results for indices
0 and 2; the writer emits only frame 0 — not all submitted frames sorted by
index — and `frames_written = 1 < 2` keeps its loop spinning forever. -/
theorem writer_order_gapped_counterexample :
    (writerLoop (arrivalsFor [0, 2] (fun i => [digitToChar i])) [] 0 2 []).2.2
        = [['0']] ∧
    (writerLoop (arrivalsFor [0, 2] (fun i => [digitToChar i])) [] 0 2 []).2.2
        ≠ [['0'], ['2']] ∧
    (writerLoop (arrivalsFor [0, 2] (fun i => [digitToChar i])) [] 0 2 []).2.1 < 2 := by
  decide

/-- C4 (code bug): the spec's scenario — `frame_count = 5`, `frame_step = 1`,
frame 3 unreadable, so results arrive for indices `[0, 1, 2, 4]` with
`total_frames` still 5.  The claim (and generate.py's own intent, the
"Frame ... could not be read!" warning plus `continue`) says the encode
completes with 4 emitted frames; instead the writer emits 3 frames, frame 4
stays buffered, and `frames_written = 3 < 5` makes
`while frames_written < total_frames` loop on `Empty` forever, hanging
`writer_thread.join()`. -/
theorem encoder_hangs_when_frame_unreadable :
    (writerLoop (arrivalsFor [0, 1, 2, 4] (fun i => [digitToChar i])) [] 0 5 []).2.2
        = [['0'], ['1'], ['2']] ∧
    (writerLoop (arrivalsFor [0, 1, 2, 4] (fun i => [digitToChar i])) [] 0 5 []).2.1
        = 3 := by
  decide

/-- Counterexample to C3 as stated: with exact division `256/10 = 25.6` the
claim puts sample 25 in bucket 0 (`'@'`), but `frame_to_ascii` computes
`256 // 10 = 25` (truncated), putting 25 in bucket 1 (`'%'`). -/
theorem glyph_exact_division_counterexample :
    asciiCharFor 25 ≠ ASCII_CHARS.getD (specGlyphIndex 25) ' ' := by
  decide

/-- C3 (amended): for every sample in `[0, 255]` the glyph mapper returns the
ramp character at `min(N-1, s // (256 // N))` with `N = 10` and truncated
integer division `256 // 10 = 25`; the function is total and pure. -/
theorem glyph_maps_by_truncated_bucket (s : Nat) (h : s ≤ 255) :
    asciiCharFor s = ASCII_CHARS.getD (min 9 (s / 25)) ' ' := by
  have hlen : ASCII_CHARS.length = 10 := by decide
  unfold asciiCharFor glyphIndex
  rw [hlen]

/-- Witness for C3's amended theorem at sample 25. -/
theorem glyph_truncated_bucket_witness :
    (25 ≤ 255) ∧ asciiCharFor 25 = ASCII_CHARS.getD (min 9 (25 / 25)) ' ' :=
  ⟨by decide, glyph_maps_by_truncated_bucket 25 (by decide)⟩

/-- C8: sample 0 maps to the first ramp character `'@'`, sample 255 maps to
the last ramp character `' '`, and the sample-to-ramp-index mapping is
non-decreasing. -/
theorem glyph_endpoints_and_monotone :
    asciiCharFor 0 = '@' ∧ asciiCharFor 255 = ' ' ∧
    ∀ a b : Nat, a ≤ b → glyphIndex a ≤ glyphIndex b := by
  refine ⟨by decide, by decide, fun a b h => ?_⟩
  unfold glyphIndex
  exact min_le_min (le_refl _) (Nat.div_le_div_right h)

/-- Witness for C8 at the concrete pair `100 ≤ 200`. -/
theorem glyph_monotone_witness :
    (100 ≤ 200) ∧ glyphIndex 100 ≤ glyphIndex 200 :=
  ⟨by decide, glyph_endpoints_and_monotone.2.2 100 200 (by decide)⟩

/-- C5: in the playback loop, whenever `time_to_sleep` is not positive the
next frame index is `floor(elapsed_time / frame_duration)` — the loop jumps,
dropping intermediate frames instead of queueing them. -/
theorem catchup_resyncs_to_wall_clock (i fps : Nat) (elapsed render : ℚ)
    (hfps : 0 < fps) (helapsed : 0 ≤ elapsed)
    (hbehind : timeToSleep i fps elapsed render ≤ 0) :
    (nextFrameIndex i fps elapsed render : ℤ) = ⌊elapsed / frameDuration fps⌋ := by
  unfold nextFrameIndex
  rw [if_neg (not_lt.mpr hbehind)]
  refine Int.toNat_of_nonneg (Int.floor_nonneg.mpr (div_nonneg helapsed ?_))
  unfold frameDuration
  positivity

/-- Witness for C5: fps 1, frame 0 rendered 3 seconds late jumps straight to
frame 3. -/
theorem catchup_resync_witness :
    (0 < 1) ∧ ((0:ℚ) ≤ 3) ∧ timeToSleep 0 1 3 0 ≤ 0 ∧
    (nextFrameIndex 0 1 3 0 : ℤ) = ⌊(3:ℚ) / frameDuration 1⌋ :=
  ⟨by decide, by norm_num, by norm_num [timeToSleep, frameDuration],
    catchup_resyncs_to_wall_clock 0 1 3 0 (by decide) (by norm_num)
      (by norm_num [timeToSleep, frameDuration])⟩

/-- Counterexample to C7 as stated: for an absent (`None`) frame,
`process_frame` does not return `(index, "")` — `frame_to_ascii` returns
`""` without raising, and the happy path appends `"\n" + "=" * width + "\n"`. -/
theorem process_frame_absent_counterexample :
    process_frame (fun _ : Unit => Except.ok []) 3 4 none 10 ≠ (3, []) := by
  decide

/-- C7 (amended): per-frame failures never escape `process_frame`: when the
transcode raises, the result is `(index, "")`; when the frame is absent
(`None`), the result is `(index, "\n" + "=" * width + "\n")` (an empty body
followed by the separator rule) — in both cases a pair tagged with the frame
index is returned and no exception propagates. -/
theorem process_frame_localizes_failures {α : Type}
    (body : α → Except Unit (List Char)) (frame_idx width total : Nat)
    (hw : 0 < width) :
    process_frame body frame_idx width none total = (frame_idx, frameArt [] width) ∧
    (∀ f : α, body f = Except.error () →
      process_frame body frame_idx width (some f) total = (frame_idx, [])) := by
  constructor
  · unfold process_frame frame_to_ascii
    rw [if_neg (Nat.pos_iff_ne_zero.mp hw)]
    rfl
  · intro f hf
    unfold process_frame frame_to_ascii
    rw [if_neg (Nat.pos_iff_ne_zero.mp hw)]
    dsimp only
    rw [hf]

/-- Witness for C7's amended theorem with a raising transcode body. -/
theorem process_frame_failure_witness :
    process_frame (fun _ : Unit => Except.error ()) 7 2 none 5
        = (7, frameArt [] 2) ∧
    process_frame (fun _ : Unit => Except.error ()) 7 2 (some ()) 5 = (7, []) :=
  ⟨(process_frame_localizes_failures (fun _ : Unit => Except.error ()) 7 2 5
      (by decide)).1,
    (process_frame_localizes_failures (fun _ : Unit => Except.error ()) 7 2 5
      (by decide)).2 () rfl⟩

/-- With a constant clock (no time passes) and no key press, the playback
loop steps through the frames one by one, rendering each with the fixed
dimensions it was given. -/
theorem displayLoop_const_clock (fps : Nat) (hfps : 0 < fps)
    (frames : List (List Char)) (h w : Nat) (c : ℚ) :
    ∀ (fuel i j : Nat) (acc : List (Nat × List (List Char))),
      displayLoop fps frames h w (fun _ => c) (fun _ => false) fuel i j acc
        = acc ++ (List.range' i (min (frames.length - i) fuel)).map
            (fun k => (k, renderFrame h w (frames.getD k []))) := by
  intro fuel
  induction fuel with
  | zero =>
    intro i j acc
    simp [displayLoop]
  | succ fuel ih =>
    intro i j acc
    rw [displayLoop.eq_def]
    dsimp only
    by_cases hi : i < frames.length
    · rw [if_pos hi]
      have hnext : nextFrameIndex i fps (c - c) (c - c) = i + 1 := by
        unfold nextFrameIndex
        rw [if_pos ?_]
        unfold timeToSleep frameDuration
        have harith : ((i : ℚ) + 1) * (1 / (fps : ℚ)) - (c - c) - (c - c)
            = ((i : ℚ) + 1) * (1 / (fps : ℚ)) := by ring
        rw [harith]
        positivity
      rw [hnext, ih (i + 1) (j + 1) _]
      have hm : min (frames.length - i) (fuel + 1)
          = min (frames.length - (i + 1)) fuel + 1 := by omega
      rw [hm, List.range'_succ]
      simp
    · rw [if_neg hi]
      have h0 : frames.length - i = 0 := by omega
      rw [h0]
      simp

/-- Every `(index, rendered)` pair the playback loop accumulates was clipped
with the fixed dimensions the loop was given. -/
theorem displayLoop_rendered_dims (fps : Nat) (frames : List (List Char))
    (h w : Nat) (clock : Nat → ℚ) (getch : Nat → Bool) :
    ∀ (fuel i j : Nat) (acc : List (Nat × List (List Char))),
      (∀ q ∈ acc, q.2 = renderFrame h w (frames.getD q.1 [])) →
      ∀ p ∈ displayLoop fps frames h w clock getch fuel i j acc,
        p.2 = renderFrame h w (frames.getD p.1 []) := by
  intro fuel
  induction fuel with
  | zero =>
    intro i j acc hacc p hp
    exact hacc p hp
  | succ fuel ih =>
    intro i j acc hacc p hp
    rw [displayLoop.eq_def] at hp
    dsimp only at hp
    split at hp
    · have hacc' : ∀ q ∈ acc ++ [(i, renderFrame h w (frames.getD i []))],
          q.2 = renderFrame h w (frames.getD q.1 []) := by
        intro q hq
        rcases List.mem_append.mp hq with h1 | h1
        · exact hacc q h1
        · simp only [List.mem_singleton] at h1
          rw [h1]
      split at hp
      · exact hacc' p hp
      · exact ih _ _ _ hacc' p hp
    · exact hacc p hp

/-- C9 (amended): the terminal dimensions are read once, before the loop
(`stdscr.getmaxyx()` on display.py line 57), so every iteration clips with the
initial dimensions `dims 0`: the whole run is unchanged if later dimension
readings are replaced by the initial one, and every rendered screen equals
the current frame clipped to `dims 0`.  As stated the claim is false: a
dimension change between frames does not affect the next rendered frame. -/
theorem display_clips_with_initial_dims (fps : Nat) (frames : List (List Char))
    (dims : Nat → Nat × Nat) (clock : Nat → ℚ) (getch : Nat → Bool) (fuel : Nat) :
    display_ascii_animation fps frames dims clock getch fuel
      = display_ascii_animation fps frames (fun _ => dims 0) clock getch fuel ∧
    ∀ p ∈ display_ascii_animation fps frames dims clock getch fuel,
      p.2 = renderFrame (dims 0).1 (dims 0).2 (frames.getD p.1 []) := by
  refine ⟨rfl, ?_⟩
  exact displayLoop_rendered_dims fps frames (dims 0).1 (dims 0).2 clock getch
    fuel 0 0 [] (by simp)

/-- Witness for C9's amended theorem: a one-frame run with dimension stream
`(1,1), (2,2), (3,3), ...` renders its frame clipped to the initial `(1,1)`. -/
theorem display_initial_dims_witness :
    ((0, [['a']]) ∈ display_ascii_animation 24 ["ab\ncd".data]
        (fun k => (k + 1, k + 1)) (fun _ => 0) (fun _ => false) 1) ∧
    ([['a']] : List (List Char)) = renderFrame 1 1 "ab\ncd".data := by
  have hrun : display_ascii_animation 24 ["ab\ncd".data] (fun k => (k + 1, k + 1))
      (fun _ => 0) (fun _ => false) 1 = [(0, [['a']])] := by
    unfold display_ascii_animation
    rw [displayLoop_const_clock 24 (by decide) _ _ _ 0 1 0 0 []]
    decide
  have hmem : (0, [['a']]) ∈ display_ascii_animation 24 ["ab\ncd".data]
      (fun k => (k + 1, k + 1)) (fun _ => 0) (fun _ => false) 1 := by
    rw [hrun]
    simp
  exact ⟨hmem,
    (display_clips_with_initial_dims 24 ["ab\ncd".data] (fun k => (k + 1, k + 1))
      (fun _ => 0) (fun _ => false) 1).2 (0, [['a']]) hmem⟩

/-- Counterexample to C9 as stated: the terminal reports `(1,1)` before the
loop and `(2,2)` from the next reading on; if dimensions were re-read each
iteration, iteration 1 would render `[['a','b'],['c','d']]`, but the code
renders `[['a']]` — the changed dimensions are ignored. -/
theorem display_dims_change_ignored_counterexample :
    display_ascii_animation 24 ["ab\ncd".data, "ab\ncd".data]
        (fun k => if k = 0 then (1, 1) else (2, 2)) (fun _ => 0) (fun _ => false) 2
      = [(0, [['a']]), (1, [['a']])] ∧
    renderFrame 2 2 "ab\ncd".data = [['a', 'b'], ['c', 'd']] ∧
    ([['a']] : List (List Char)) ≠ [['a', 'b'], ['c', 'd']] := by
  refine ⟨?_, by decide, by decide⟩
  unfold display_ascii_animation
  rw [displayLoop_const_clock 24 (by decide) _ _ _ 0 2 0 0 []]
  decide

section StringLemmas

theorem mem_rstrip {x : Char} {l : List Char} (h : x ∈ rstrip l) : x ∈ l := by
  unfold rstrip at h
  rw [List.mem_reverse] at h
  have := (List.dropWhile_sublist (l := l.reverse) (p := pyIsSpace)).subset h
  rwa [List.mem_reverse] at this

theorem rstrip_idem (l : List Char) : rstrip (rstrip l) = rstrip l := by
  unfold rstrip
  rw [List.reverse_reverse, List.dropWhile_idempotent]

theorem rstrip_append_newline (l : List Char) : rstrip (l ++ ['\n']) = rstrip l := by
  unfold rstrip
  rw [List.reverse_append]
  simp [List.dropWhile_cons_of_pos, pyIsSpace]

theorem rstrip_of_all_nonspace {l : List Char}
    (h : ∀ c ∈ l, pyIsSpace c = false) : rstrip l = l := by
  unfold rstrip
  cases hrev : l.reverse with
  | nil =>
    have : l = [] := by
      have := congrArg List.reverse hrev
      simpa using this
    simp [this]
  | cons c t =>
    have hc : c ∈ l := by
      rw [← List.mem_reverse, hrev]
      simp
    rw [List.dropWhile_cons_of_neg (by simp [h c hc]), ← hrev, List.reverse_reverse]

theorem rstrip_ne_nil_of_clean {l : List Char} (hne : l ≠ [])
    (h : rstrip l = l) : rstrip l ≠ [] := by
  rw [h]
  exact hne

theorem dropWhile_eq_self_of_rstrip {l : List Char} (h : rstrip l = l) :
    List.dropWhile pyIsSpace l.reverse = l.reverse := by
  have := congrArg List.reverse h
  rw [rstrip] at this
  rw [List.reverse_reverse] at this
  exact this

theorem rstrip_append_clean (a b : List Char) (hb : rstrip b = b) (hbne : b ≠ []) :
    rstrip (a ++ b) = a ++ b := by
  unfold rstrip
  rw [List.reverse_append, List.dropWhile_append]
  have hd : List.dropWhile pyIsSpace b.reverse = b.reverse :=
    dropWhile_eq_self_of_rstrip hb
  rw [hd]
  have hne : b.reverse.isEmpty = false := by
    cases hb2 : b.reverse with
    | nil =>
      exact absurd (by simpa using congrArg List.reverse hb2) hbne
    | cons c t => rfl
  rw [hne]
  simp

theorem lstrip_cons_space_of_clean {b : List Char} (hb : lstrip b = b) :
    lstrip (' ' :: b) = b := by
  unfold lstrip at hb ⊢
  rw [List.dropWhile_cons_of_pos (by simp [pyIsSpace]), hb]

end StringLemmas

section LineSplitLemmas

theorem pyReadLinesAux_chunk {l : List Char} (hl : '\n' ∉ l) :
    ∀ (cur rest : List Char),
      pyReadLinesAux cur (l ++ '\n' :: rest)
        = ((cur.reverse ++ l) ++ ['\n']) :: pyReadLinesAux [] rest := by
  induction l with
  | nil =>
    intro cur rest
    simp [pyReadLinesAux]
  | cons c t ih =>
    intro cur rest
    have hc : ¬ c = '\n' := fun hc => hl (by simp [hc])
    have ht : '\n' ∉ t := fun hm => hl (by simp [hm])
    rw [List.cons_append, pyReadLinesAux, if_neg hc, ih ht (c :: cur) rest]
    simp

theorem pyReadLines_flatten {ls : List (List Char)}
    (h : ∀ l ∈ ls, '\n' ∉ l) :
    pyReadLines ((ls.map (fun l => l ++ ['\n'])).flatten)
      = ls.map (fun l => l ++ ['\n']) := by
  induction ls with
  | nil => rfl
  | cons x t ih =>
    have hx : '\n' ∉ x := h x (by simp)
    have ht : ∀ l ∈ t, '\n' ∉ l := fun l hl => h l (by simp [hl])
    rw [List.map_cons, List.flatten_cons]
    unfold pyReadLines
    rw [List.append_assoc, List.singleton_append, pyReadLinesAux_chunk hx]
    rw [List.reverse_nil, List.nil_append]
    exact congrArg _ (ih ht)

theorem pyReadLines_line_shape :
    ∀ (s cur : List Char), '\n' ∉ cur →
      ∀ l ∈ pyReadLinesAux cur s,
        ∃ c : List Char, '\n' ∉ c ∧ (l = c ++ ['\n'] ∨ l = c) := by
  intro s
  induction s with
  | nil =>
    intro cur hcur l hl
    rw [pyReadLinesAux] at hl
    by_cases h : cur.isEmpty
    · rw [if_pos h] at hl
      simp at hl
    · rw [if_neg h] at hl
      simp at hl
      exact ⟨cur.reverse, by simpa using hcur, Or.inr hl⟩
  | cons ch cs ih =>
    intro cur hcur l hl
    rw [pyReadLinesAux] at hl
    by_cases h : ch = '\n'
    · rw [if_pos h] at hl
      rcases List.mem_cons.mp hl with h1 | h1
      · exact ⟨cur.reverse, by simpa using hcur, Or.inl h1⟩
      · exact ih [] (by simp) l h1
    · rw [if_neg h] at hl
      exact ih (ch :: cur) (by simp [hcur, Ne.symm h, h]) l hl

theorem no_newline_in_rstrip_line {s l : List Char} (h : l ∈ pyReadLines s) :
    '\n' ∉ rstrip l := by
  obtain ⟨c, hc, hshape⟩ := pyReadLines_line_shape s [] (by simp) l h
  intro hmem
  rcases hshape with h1 | h1
  · rw [h1, rstrip_append_newline] at hmem
    exact hc (mem_rstrip hmem)
  · rw [h1] at hmem
    exact hc (mem_rstrip hmem)

theorem pySplitNLAux_no_newline {x : List Char} (hx : '\n' ∉ x) :
    ∀ (cur rest : List Char),
      pySplitNLAux cur (x ++ rest) = pySplitNLAux (x.reverse ++ cur) rest := by
  induction x with
  | nil =>
    intro cur rest
    simp
  | cons c t ih =>
    intro cur rest
    have hc : ¬ c = '\n' := fun h => hx (by simp [h])
    have ht : '\n' ∉ t := fun h => hx (by simp [h])
    rw [List.cons_append, pySplitNLAux, if_neg hc, ih ht (c :: cur) rest]
    simp

theorem pySplitNL_intercalate :
    ∀ (ls : List (List Char)), ls ≠ [] → (∀ x ∈ ls, '\n' ∉ x) →
      pySplitNL (List.intercalate ['\n'] ls) = ls := by
  intro ls
  induction ls with
  | nil => intro h; exact absurd rfl h
  | cons x t ih =>
    intro _ hgood
    cases t with
    | nil =>
      have hx : '\n' ∉ x := hgood x (by simp)
      unfold pySplitNL
      have h1 : List.intercalate ['\n'] [x] = x := by
        simp [List.intercalate]
      rw [h1]
      have h2 : pySplitNLAux [] (x ++ []) = pySplitNLAux (x.reverse ++ []) [] :=
        pySplitNLAux_no_newline hx [] []
      rw [List.append_nil] at h2
      rw [h2]
      simp [pySplitNLAux]
    | cons y t2 =>
      have hx : '\n' ∉ x := hgood x (by simp)
      have hrest : ∀ z ∈ y :: t2, '\n' ∉ z := fun z hz => hgood z (by simp [hz])
      have hstep : List.intercalate ['\n'] (x :: y :: t2)
          = x ++ '\n' :: List.intercalate ['\n'] (y :: t2) := by
        unfold List.intercalate
        rw [List.intersperse_cons_cons]
        simp
      rw [hstep]
      unfold pySplitNL
      rw [pySplitNLAux_no_newline hx [] _, pySplitNLAux]
      rw [if_pos rfl]
      simp only [List.append_nil, List.reverse_reverse]
      exact congrArg _ (ih (by simp) hrest)

end LineSplitLemmas

/-- One decoder step preserves: every finished frame splits into
right-stripped rows, and every pending row is right-stripped, non-empty and
newline-free. -/
theorem rafStep_preserves_stripped (st : RafState) (line : List Char)
    (st' : RafState) (hline : '\n' ∉ rstrip line)
    (h1 : ∀ fr ∈ st.frames, ∀ row ∈ pySplitNL fr, rstrip row = row)
    (h2 : ∀ r ∈ st.frameLines, rstrip r = r ∧ r ≠ [] ∧ '\n' ∉ r)
    (hok : rafStep st line = Except.ok st') :
    (∀ fr ∈ st'.frames, ∀ row ∈ pySplitNL fr, rstrip row = row) ∧
    (∀ r ∈ st'.frameLines, rstrip r = r ∧ r ≠ [] ∧ '\n' ∉ r) := by
  unfold rafStep at hok
  dsimp only at hok
  split at hok
  · have hst := Except.ok.inj hok
    subst hst
    exact ⟨h1, h2⟩
  · split at hok
    · split at hok
      · have hst := Except.ok.inj hok
        subst hst
        exact ⟨h1, h2⟩
      · split at hok
        · split at hok
          · have hst := Except.ok.inj hok
            subst hst
            exact ⟨h1, h2⟩
          · exact Except.noConfusion hok
        · have hst := Except.ok.inj hok
          subst hst
          exact ⟨h1, h2⟩
    · split at hok
      · split at hok
        · have hst := Except.ok.inj hok
          subst hst
          exact ⟨h1, h2⟩
        · have hst := Except.ok.inj hok
          subst hst
          rename_i hfl
          refine ⟨?_, by simp⟩
          intro fr hfr
          rcases List.mem_append.mp hfr with hm | hm
          · exact h1 fr hm
          · simp only [List.mem_singleton] at hm
            subst hm
            intro row hrow
            rw [pySplitNL_intercalate st.frameLines hfl
              (fun x hx => (h2 x hx).2.2)] at hrow
            exact (h2 row hrow).1
      · have hst := Except.ok.inj hok
        subst hst
        refine ⟨h1, ?_⟩
        intro r hr
        rcases List.mem_append.mp hr with hm | hm
        · exact h2 r hm
        · simp only [List.mem_singleton] at hm
          subst hm
          rename_i hne hpar hpre
          exact ⟨rstrip_idem line, hne, hline⟩

/-- Folding the decoder over newline-free stripped lines preserves the
row-stripped invariant. -/
theorem rafFold_rows_stripped :
    ∀ (lines : List (List Char)) (st st' : RafState),
      (∀ l ∈ lines, '\n' ∉ rstrip l) →
      (∀ fr ∈ st.frames, ∀ row ∈ pySplitNL fr, rstrip row = row) →
      (∀ r ∈ st.frameLines, rstrip r = r ∧ r ≠ [] ∧ '\n' ∉ r) →
      List.foldlM rafStep st lines = Except.ok st' →
      (∀ fr ∈ st'.frames, ∀ row ∈ pySplitNL fr, rstrip row = row) ∧
      (∀ r ∈ st'.frameLines, rstrip r = r ∧ r ≠ [] ∧ '\n' ∉ r) := by
  intro lines
  induction lines with
  | nil =>
    intro st st' _ h1 h2 hok
    have hst : st = st' := Except.ok.inj hok
    subst hst
    exact ⟨h1, h2⟩
  | cons l ls ih =>
    intro st st' hlines h1 h2 hok
    rw [List.foldlM_cons] at hok
    cases hstep : rafStep st l with
    | error e =>
      rw [hstep] at hok
      exact Except.noConfusion hok
    | ok st1 =>
      rw [hstep] at hok
      obtain ⟨g1, g2⟩ := rafStep_preserves_stripped st l st1
        (hlines l (by simp)) h1 h2 hstep
      exact ih st1 st' (fun x hx => hlines x (by simp [hx])) g1 g2 hok

/-- C10: every row of every frame returned by `read_ascii_frames` has no
trailing whitespace — each line is right-stripped during parsing — so a
decoded frame row is never equal to an encoded row that ended in one or more
whitespace characters. -/
theorem decoded_rows_are_rstripped (file : List Char)
    (frames : List (List Char)) (m : VideoMetadata)
    (hok : read_ascii_frames file = Except.ok (frames, m)) :
    ∀ fr ∈ frames, ∀ row ∈ pySplitNL fr,
      rstrip row = row ∧ ∀ enc : List Char, rstrip enc ≠ enc → row ≠ enc := by
  unfold read_ascii_frames at hok
  cases hfold : List.foldlM rafStep rafInit (pyReadLines file) with
  | error e =>
    rw [hfold] at hok
    exact Except.noConfusion hok
  | ok st =>
    rw [hfold] at hok
    obtain ⟨hinv1, hinv2⟩ := rafFold_rows_stripped (pyReadLines file) rafInit st
      (fun l hl => no_newline_in_rstrip_line hl) (by simp [rafInit])
      (by simp [rafInit]) hfold
    have hpair : ((if st.frameLines = [] then st.frames
        else st.frames ++ [List.intercalate ['\n'] st.frameLines]), st.meta)
        = (frames, m) := Except.ok.inj hok
    rw [Prod.mk.injEq] at hpair
    obtain ⟨hf, _⟩ := hpair
    intro fr hfr row hrow
    have hstrip : rstrip row = row := by
      rw [← hf] at hfr
      by_cases hfl : st.frameLines = []
      · rw [if_pos hfl] at hfr
        exact hinv1 fr hfr row hrow
      · rw [if_neg hfl] at hfr
        rcases List.mem_append.mp hfr with hm1 | hm1
        · exact hinv1 fr hm1 row hrow
        · simp only [List.mem_singleton] at hm1
          subst hm1
          rw [pySplitNL_intercalate st.frameLines hfl
            (fun x hx => (hinv2 x hx).2.2)] at hrow
          exact (hinv2 row hrow).1
    exact ⟨hstrip, fun enc henc hcontra => henc (hcontra ▸ hstrip)⟩

/-- Witness for C10 on the file `"\nX \n"`: the decoded row is `"X"`,
right-stripped, and differs from the space-ended original `"X "`. -/
theorem decoded_rows_rstripped_witness :
    read_ascii_frames "\nX \n".data = Except.ok ([['X']], ⟨none, none⟩) ∧
    (rstrip ['X'] = ['X'] ∧
      ∀ enc : List Char, rstrip enc ≠ enc → ['X'] ≠ enc) := by
  have hok : read_ascii_frames "\nX \n".data = Except.ok ([['X']], ⟨none, none⟩) := by
    decide
  exact ⟨hok, decoded_rows_are_rstripped "\nX \n".data [['X']] ⟨none, none⟩ hok
    ['X'] (by decide) ['X'] (by decide)⟩

/-- While `parsing_metadata` is set, a non-blank line matching neither
metadata key leaves the decoder state untouched. -/
theorem rafStep_meta_no_keys (st : RafState) (line : List Char)
    (hp : st.parsingMetadata = true)
    (hne : rstrip line ≠ [])
    (hk1 : List.isPrefixOf "Video Resolution:".data (rstrip line) = false)
    (hk2 : List.isPrefixOf "Video FPS:".data (rstrip line) = false) :
    rafStep st line = Except.ok st := by
  unfold rafStep
  dsimp only
  rw [if_neg hne, if_pos hp, if_neg (by simp [hk1]), if_neg (by simp [hk2])]

/-- Folding the decoder over blank-free, key-free lines never leaves the
metadata-parsing state. -/
theorem rafFold_meta_no_keys :
    ∀ (lines : List (List Char)) (st : RafState),
      st.parsingMetadata = true →
      (∀ l ∈ lines, rstrip l ≠ [] ∧
        List.isPrefixOf "Video Resolution:".data (rstrip l) = false ∧
        List.isPrefixOf "Video FPS:".data (rstrip l) = false) →
      List.foldlM rafStep st lines = Except.ok st := by
  intro lines
  induction lines with
  | nil =>
    intro st _ _
    rfl
  | cons l ls ih =>
    intro st hp h
    rw [List.foldlM_cons,
      rafStep_meta_no_keys st l hp (h l (by simp)).1 (h l (by simp)).2.1
        (h l (by simp)).2.2]
    exact ih st hp (fun x hx => h x (by simp [hx]))

/-- C6 (amended): a header-less legacy artifact parses without error and the
caller's default fps is used (`metadata.get('fps', 24)`), but — contrary to
the claim — the frames are not all returned: every line before the first
blank line is consumed by the metadata-scanning state, so an artifact with no
blank line yields an empty frame list. -/
theorem headerless_artifact_discards_frames (file : List Char)
    (h : ∀ l ∈ pyReadLines file, rstrip l ≠ [] ∧
      List.isPrefixOf "Video Resolution:".data (rstrip l) = false ∧
      List.isPrefixOf "Video FPS:".data (rstrip l) = false) :
    read_ascii_frames file = Except.ok ([], ⟨none, none⟩) ∧
    playbackFps ⟨none, none⟩ 24 = 24 := by
  constructor
  · unfold read_ascii_frames
    rw [rafFold_meta_no_keys (pyReadLines file) rafInit rfl h]
    rfl
  · rfl

/-- Witness for C6's amended theorem on the header-less artifact
`"X\n" + "="*80 + "\n"`. -/
theorem headerless_default_fps_witness :
    (∀ l ∈ pyReadLines ("X\n".data ++ List.replicate 80 '=' ++ "\n".data),
      rstrip l ≠ [] ∧
      List.isPrefixOf "Video Resolution:".data (rstrip l) = false ∧
      List.isPrefixOf "Video FPS:".data (rstrip l) = false) ∧
    (read_ascii_frames ("X\n".data ++ List.replicate 80 '=' ++ "\n".data)
        = Except.ok ([], ⟨none, none⟩) ∧
      playbackFps ⟨none, none⟩ 24 = 24) :=
  ⟨by decide, headerless_artifact_discards_frames
    ("X\n".data ++ List.replicate 80 '=' ++ "\n".data) (by decide)⟩

/-- Counterexample to C6 as stated: the header-less legacy artifact
`"A\n" + "="*80 + "\nB\n"` decodes to no frames at all — both `"A"` and
`"B"` (and the separator) are consumed by the metadata scanner, which only
stops at a blank line — instead of the claimed `["A", "B"]`. -/
theorem headerless_artifact_counterexample :
    read_ascii_frames ("A\n".data ++ List.replicate 80 '=' ++ "\nB\n".data)
      = Except.ok ([], ⟨none, none⟩) ∧
    ([] : List (List Char)) ≠ [['A'], ['B']] :=
  ⟨by decide, by decide⟩

section DecimalLemmas

theorem digitsVal_append_digit (xs : List Nat) (d : Nat) :
    digitsVal (xs ++ [d]) = digitsVal xs * 10 + d := by
  unfold digitsVal
  rw [List.foldl_append]
  rfl

theorem natDigitsAux_spec :
    ∀ (fuel n : Nat), n ≤ fuel →
      digitsVal (natDigitsAux fuel n) = n ∧
      ∀ d ∈ natDigitsAux fuel n, d < 10 := by
  intro fuel
  induction fuel with
  | zero =>
    intro n hn
    have : n = 0 := Nat.le_zero.mp hn
    subst this
    exact ⟨rfl, by simp [natDigitsAux]⟩
  | succ fuel ih =>
    intro n hn
    cases n with
    | zero => exact ⟨rfl, by simp [natDigitsAux]⟩
    | succ m =>
      have hdiv : (m + 1) / 10 ≤ fuel := by
        have := Nat.div_lt_self (Nat.succ_pos m) (by norm_num : (1:Nat) < 10)
        omega
      obtain ⟨hval, hdig⟩ := ih ((m + 1) / 10) hdiv
      constructor
      · rw [show natDigitsAux (fuel + 1) (m + 1)
            = natDigitsAux fuel ((m + 1) / 10) ++ [(m + 1) % 10] from rfl]
        rw [digitsVal_append_digit, hval]
        have := Nat.div_add_mod (m + 1) 10
        omega
      · intro d hd
        rw [show natDigitsAux (fuel + 1) (m + 1)
            = natDigitsAux fuel ((m + 1) / 10) ++ [(m + 1) % 10] from rfl] at hd
        rcases List.mem_append.mp hd with h | h
        · exact hdig d h
        · simp only [List.mem_singleton] at h
          subst h
          exact Nat.mod_lt _ (by norm_num)

theorem natDigitsAux_ne_nil {fuel n : Nat} (hn : 0 < n) (hf : 0 < fuel) :
    natDigitsAux fuel n ≠ [] := by
  cases fuel with
  | zero => exact absurd hf (lt_irrefl 0)
  | succ f =>
    cases n with
    | zero => exact absurd hn (lt_irrefl 0)
    | succ m => simp [natDigitsAux]

theorem charToDigit_digitToChar {d : Nat} (hd : d < 10) :
    charToDigit (digitToChar d) = d := by
  interval_cases d <;> decide

theorem isDigitChar_digitToChar (d : Nat) :
    isDigitChar (digitToChar d) = true := by
  unfold digitToChar
  split <;> decide

theorem digitToChar_ne_plus (d : Nat) : digitToChar d ≠ '+' := by
  unfold digitToChar
  split <;> decide

theorem pyIsSpace_digitToChar (d : Nat) : pyIsSpace (digitToChar d) = false := by
  unfold digitToChar
  split <;> decide

theorem pyInt_natToChars (n : Nat) : pyInt (natToChars n) = some n := by
  by_cases h : n = 0
  · subst h
    decide
  · have hpos : 0 < n := Nat.pos_of_ne_zero h
    obtain ⟨hval, hdig⟩ := natDigitsAux_spec n n (le_refl n)
    unfold natToChars
    rw [if_neg h]
    cases hds : natDigitsAux n n with
    | nil => exact absurd hds (natDigitsAux_ne_nil hpos hpos)
    | cons d0 ds =>
      have hd0 : d0 < 10 := hdig d0 (by rw [hds]; simp)
      rw [List.map_cons]
      unfold pyInt
      dsimp only
      have hmatch : (match digitToChar d0 :: List.map digitToChar ds with
          | '+' :: rest => rest
          | other => other) = digitToChar d0 :: List.map digitToChar ds := by
        interval_cases d0 <;> rfl
      rw [hmatch]
      rw [if_neg (by simp)]
      rw [if_pos ?hall]
      case hall =>
        rw [← List.map_cons, ← hds]
        simp only [List.all_eq_true]
        intro c hc
        obtain ⟨d, hdm, hdc⟩ := List.mem_map.mp hc
        rw [← hdc]
        exact isDigitChar_digitToChar d
      congr 1
      rw [← List.map_cons, ← hds, List.map_map]
      have hmap : (natDigitsAux n n).map (charToDigit ∘ digitToChar)
          = (natDigitsAux n n).map id := by
        apply List.map_congr_left
        intro d hd
        exact charToDigit_digitToChar (hdig d hd)
      rw [hmap, List.map_id]
      exact hval

end DecimalLemmas

section RafStepBranches

theorem rafStep_blank (st : RafState) (line : List Char)
    (h : rstrip line = []) :
    rafStep st line = Except.ok { st with parsingMetadata := false } := by
  unfold rafStep
  dsimp only
  rw [if_pos h]

theorem rafStep_resolution (st : RafState) (line : List Char)
    (hp : st.parsingMetadata = true) (hne : rstrip line ≠ [])
    (hpre : List.isPrefixOf "Video Resolution:".data (rstrip line) = true) :
    rafStep st line = Except.ok { st with
      meta := ⟨some (pyStrip (afterFirstColon (rstrip line))), st.meta.fps⟩ } := by
  unfold rafStep
  dsimp only
  rw [if_neg hne, if_pos hp, if_pos hpre]

theorem rafStep_fps (st : RafState) (line : List Char)
    (hp : st.parsingMetadata = true) (hne : rstrip line ≠ [])
    (hnot1 : List.isPrefixOf "Video Resolution:".data (rstrip line) = false)
    (hpre : List.isPrefixOf "Video FPS:".data (rstrip line) = true)
    (v : Nat) (hint : pyInt (pyStrip (afterFirstColon (rstrip line))) = some v) :
    rafStep st line = Except.ok { st with
      meta := ⟨st.meta.resolution, some v⟩ } := by
  unfold rafStep
  dsimp only
  rw [if_neg hne, if_pos hp, if_neg (by simp [hnot1]), if_pos hpre, hint]

theorem rafStep_sep (st : RafState) (line : List Char)
    (hp : st.parsingMetadata = false) (hne : rstrip line ≠ [])
    (hpre : List.isPrefixOf (List.replicate 80 '=') (rstrip line) = true) :
    rafStep st line = Except.ok (if st.frameLines = [] then st
      else { st with
        frames := st.frames ++ [List.intercalate ['\n'] st.frameLines],
        frameLines := [] }) := by
  unfold rafStep
  dsimp only
  rw [if_neg hne, if_neg (by simp [hp]), if_pos hpre]
  split <;> rfl

theorem rafStep_row (st : RafState) (line : List Char)
    (hp : st.parsingMetadata = false) (hne : rstrip line ≠ [])
    (hpre : List.isPrefixOf (List.replicate 80 '=') (rstrip line) = false) :
    rafStep st line
      = Except.ok { st with frameLines := st.frameLines ++ [rstrip line] } := by
  unfold rafStep
  dsimp only
  rw [if_neg hne, if_neg (by simp [hp]),
    if_neg (by rw [hpre]; exact Bool.false_ne_true)]

theorem foldlM_rafStep_cons_ok {st st1 : RafState} {x : List Char}
    {xs : List (List Char)} (h : rafStep st x = Except.ok st1) :
    List.foldlM rafStep st (x :: xs) = List.foldlM rafStep st1 xs := by
  rw [List.foldlM_cons, h]
  rfl

end RafStepBranches

section HeaderLineLemmas

theorem lstrip_of_all_nonspace {l : List Char}
    (h : ∀ c ∈ l, pyIsSpace c = false) : lstrip l = l := by
  unfold lstrip
  cases l with
  | nil => rfl
  | cons c t =>
    rw [List.dropWhile_cons_of_neg (by simp [h c (by simp)])]

theorem natToChars_ne_nil (n : Nat) : natToChars n ≠ [] := by
  unfold natToChars
  by_cases h : n = 0
  · simp [h]
  · rw [if_neg h]
    have hpos : 0 < n := Nat.pos_of_ne_zero h
    intro hc
    exact natDigitsAux_ne_nil hpos hpos (by simpa using hc)

theorem natToChars_nonspace (n : Nat) :
    ∀ c ∈ natToChars n, pyIsSpace c = false := by
  unfold natToChars
  by_cases h : n = 0
  · rw [if_pos h]
    intro c hc
    simp only [List.mem_singleton] at hc
    subst hc
    decide
  · rw [if_neg h]
    intro c hc
    obtain ⟨d, _, hdc⟩ := List.mem_map.mp hc
    rw [← hdc]
    exact pyIsSpace_digitToChar d

theorem rstrip_natToChars (n : Nat) : rstrip (natToChars n) = natToChars n :=
  rstrip_of_all_nonspace (natToChars_nonspace n)

theorem lstrip_natToChars (n : Nat) : lstrip (natToChars n) = natToChars n :=
  lstrip_of_all_nonspace (natToChars_nonspace n)

theorem afterFirstColon_of_no_colon {pre : List Char}
    (h : ∀ c ∈ pre, (c != ':') = true) (tail : List Char) :
    afterFirstColon (pre ++ ':' :: tail) = tail := by
  unfold afterFirstColon
  rw [List.dropWhile_append]
  rw [show List.dropWhile (fun c => c != ':') pre = [] from
    List.dropWhile_eq_nil_iff.mpr (fun x hx => h x hx)]
  rw [List.dropWhile_cons_of_neg (by simp)]
  simp

theorem pyStrip_space_clean {b : List Char} (hb : b ≠ [])
    (hrs : rstrip b = b) (hls : lstrip b = b) :
    pyStrip (' ' :: b) = b := by
  unfold pyStrip
  rw [show (' ' :: b) = [' '] ++ b from rfl, rstrip_append_clean [' '] b hrs hb]
  exact lstrip_cons_space_of_clean hls

theorem resolution_line_rstrip (res : List Char) (hne : res ≠ [])
    (hrs : rstrip res = res) :
    rstrip (("Video Resolution: ".data ++ res) ++ ['\n'])
      = "Video Resolution: ".data ++ res := by
  rw [rstrip_append_newline]
  exact rstrip_append_clean _ res hrs hne

theorem resolution_line_value (res : List Char) (hne : res ≠ [])
    (hrs : rstrip res = res) (hls : lstrip res = res) :
    pyStrip (afterFirstColon ("Video Resolution: ".data ++ res)) = res := by
  have hsplit : "Video Resolution: ".data ++ res
      = "Video Resolution".data ++ ':' :: (' ' :: res) := by
    have : "Video Resolution: ".data = "Video Resolution".data ++ [':', ' '] := by
      decide
    rw [this, List.append_assoc]
    rfl
  rw [hsplit, afterFirstColon_of_no_colon (by decide) (' ' :: res)]
  exact pyStrip_space_clean hne hrs hls

theorem fps_line_rstrip (fps : Nat) :
    rstrip (("Video FPS: ".data ++ natToChars fps) ++ ['\n'])
      = "Video FPS: ".data ++ natToChars fps := by
  rw [rstrip_append_newline]
  exact rstrip_append_clean _ _ (rstrip_natToChars fps) (natToChars_ne_nil fps)

theorem fps_line_value (fps : Nat) :
    pyInt (pyStrip (afterFirstColon ("Video FPS: ".data ++ natToChars fps)))
      = some fps := by
  have hsplit : "Video FPS: ".data ++ natToChars fps
      = "Video FPS".data ++ ':' :: (' ' :: natToChars fps) := by
    have : "Video FPS: ".data = "Video FPS".data ++ [':', ' '] := by
      decide
    rw [this, List.append_assoc]
    rfl
  rw [hsplit, afterFirstColon_of_no_colon (by decide) _,
    pyStrip_space_clean (natToChars_ne_nil fps) (rstrip_natToChars fps)
      (lstrip_natToChars fps)]
  exact pyInt_natToChars fps

theorem sep_line_rstrip (w : Nat) :
    rstrip (List.replicate w '=' ++ ['\n']) = List.replicate w '=' := by
  rw [rstrip_append_newline]
  refine rstrip_of_all_nonspace ?_
  intro c hc
  rw [List.eq_of_mem_replicate hc]
  rfl

theorem sep80_isPrefixOf_sep (w : Nat) (hw : 80 ≤ w) :
    List.isPrefixOf (List.replicate 80 '=') (List.replicate w '=') = true := by
  rw [List.isPrefixOf_iff_prefix]
  rw [show w = 80 + (w - 80) from by omega, List.replicate_add]
  exact List.prefix_append _ _

end HeaderLineLemmas

theorem exceptBind_ok {α β : Type} (a : α) (f : α → Except Unit β) :
    (Except.ok a >>= f) = f a := rfl

theorem rafStep_resolution_line (st : RafState) (hp : st.parsingMetadata = true)
    (res : List Char) (hne : res ≠ []) (hrs : rstrip res = res)
    (hls : lstrip res = res) :
    rafStep st (("Video Resolution: ".data ++ res) ++ ['\n'])
      = Except.ok { st with meta := ⟨some res, st.meta.fps⟩ } := by
  have h1 := resolution_line_rstrip res hne hrs
  have hne' : rstrip (("Video Resolution: ".data ++ res) ++ ['\n']) ≠ [] := by
    rw [h1]
    simp
  have hpre : List.isPrefixOf "Video Resolution:".data
      (rstrip (("Video Resolution: ".data ++ res) ++ ['\n'])) = true := by
    rw [h1, List.isPrefixOf_iff_prefix,
      show "Video Resolution: ".data = "Video Resolution:".data ++ [' '] from
        by decide,
      List.append_assoc]
    exact List.prefix_append _ _
  rw [rafStep_resolution st _ hp hne' hpre, h1,
    resolution_line_value res hne hrs hls]

theorem rafStep_fps_line (st : RafState) (hp : st.parsingMetadata = true)
    (fps : Nat) :
    rafStep st (("Video FPS: ".data ++ natToChars fps) ++ ['\n'])
      = Except.ok { st with meta := ⟨st.meta.resolution, some fps⟩ } := by
  have h1 := fps_line_rstrip fps
  have hne' : rstrip (("Video FPS: ".data ++ natToChars fps) ++ ['\n']) ≠ [] := by
    rw [h1]
    simp
  have hnot1 : List.isPrefixOf "Video Resolution:".data
      (rstrip (("Video FPS: ".data ++ natToChars fps) ++ ['\n'])) = false := by
    rw [h1]
    simp [List.isPrefixOf]
  have hpre : List.isPrefixOf "Video FPS:".data
      (rstrip (("Video FPS: ".data ++ natToChars fps) ++ ['\n'])) = true := by
    rw [h1, List.isPrefixOf_iff_prefix,
      show "Video FPS: ".data = "Video FPS:".data ++ [' '] from by decide,
      List.append_assoc]
    exact List.prefix_append _ _
  have hint : pyInt (pyStrip (afterFirstColon
      (rstrip (("Video FPS: ".data ++ natToChars fps) ++ ['\n'])))) = some fps := by
    rw [h1]
    exact fps_line_value fps
  rw [rafStep_fps st _ hp hne' hnot1 hpre fps hint]

theorem rafStep_blank_nl (st : RafState) :
    rafStep st ([] ++ ['\n']) = Except.ok { st with parsingMetadata := false } :=
  rafStep_blank st _ (by decide)

theorem rafStep_sep_line_empty (st : RafState) (hp : st.parsingMetadata = false)
    (hfl : st.frameLines = []) (w : Nat) (hw : 80 ≤ w) :
    rafStep st (List.replicate w '=' ++ ['\n']) = Except.ok st := by
  have hne : rstrip (List.replicate w '=' ++ ['\n']) ≠ [] := by
    rw [sep_line_rstrip]
    simp
    omega
  have hpre : List.isPrefixOf (List.replicate 80 '=')
      (rstrip (List.replicate w '=' ++ ['\n'])) = true := by
    rw [sep_line_rstrip]
    exact sep80_isPrefixOf_sep w hw
  rw [rafStep_sep st _ hp hne hpre, if_pos hfl]

theorem rafStep_sep_line_flush (st : RafState) (hp : st.parsingMetadata = false)
    (hfl : st.frameLines ≠ []) (w : Nat) (hw : 80 ≤ w) :
    rafStep st (List.replicate w '=' ++ ['\n'])
      = Except.ok { st with
          frames := st.frames ++ [List.intercalate ['\n'] st.frameLines],
          frameLines := [] } := by
  have hne : rstrip (List.replicate w '=' ++ ['\n']) ≠ [] := by
    rw [sep_line_rstrip]
    simp
    omega
  have hpre : List.isPrefixOf (List.replicate 80 '=')
      (rstrip (List.replicate w '=' ++ ['\n'])) = true := by
    rw [sep_line_rstrip]
    exact sep80_isPrefixOf_sep w hw
  rw [rafStep_sep st _ hp hne hpre, if_neg hfl]

theorem rafStep_row_line (st : RafState) (hp : st.parsingMetadata = false)
    (r : List Char) (hne : r ≠ []) (hrs : rstrip r = r)
    (hpre : List.isPrefixOf (List.replicate 80 '=') r = false) :
    rafStep st (r ++ ['\n'])
      = Except.ok { st with frameLines := st.frameLines ++ [r] } := by
  have h1 : rstrip (r ++ ['\n']) = r := by
    rw [rstrip_append_newline, hrs]
  have hne' : rstrip (r ++ ['\n']) ≠ [] := by
    rw [h1]
    exact hne
  have hpre' : List.isPrefixOf (List.replicate 80 '=') (rstrip (r ++ ['\n']))
      = false := by
    rw [h1]
    exact hpre
  rw [rafStep_row st _ hp hne' hpre', h1]

/-- Folding the decoder over the five header lines written by
`write_ascii_to_file` recovers the metadata and arrives in frame-reading
state. -/
theorem header_fold (res : List Char) (fps : Nat) (hne : res ≠ [])
    (hrs : rstrip res = res) (hls : lstrip res = res) :
    List.foldlM rafStep rafInit
      ([("Video Resolution: ".data ++ res), ("Video FPS: ".data ++ natToChars fps),
        [], List.replicate 80 '=', []].map (fun l => l ++ ['\n']))
      = Except.ok ⟨false, ⟨some res, some fps⟩, [], []⟩ := by
  simp only [List.map_cons, List.map_nil]
  rw [foldlM_rafStep_cons_ok (rafStep_resolution_line rafInit rfl res hne hrs hls)]
  rw [foldlM_rafStep_cons_ok (rafStep_fps_line _ rfl fps)]
  rw [foldlM_rafStep_cons_ok (rafStep_blank_nl _)]
  rw [foldlM_rafStep_cons_ok (rafStep_sep_line_empty _ rfl rfl 80 (le_refl 80))]
  rw [foldlM_rafStep_cons_ok (rafStep_blank_nl _)]
  rfl

/-- Folding the decoder over the rows of one frame collects them in order. -/
theorem frame_rows_fold (m : VideoMetadata) :
    ∀ (rows : List (List Char)) (acc cur : List (List Char)),
      (∀ r ∈ rows, r ≠ [] ∧ rstrip r = r ∧
        List.isPrefixOf (List.replicate 80 '=') r = false) →
      List.foldlM rafStep (⟨false, m, acc, cur⟩ : RafState)
        (rows.map (fun l => l ++ ['\n']))
      = Except.ok ⟨false, m, acc, cur ++ rows⟩ := by
  intro rows
  induction rows with
  | nil =>
    intro acc cur _
    rw [List.map_nil, List.append_nil]
    rfl
  | cons r rs ih =>
    intro acc cur h
    rw [List.map_cons]
    obtain ⟨h1, h2, h3⟩ := h r (by simp)
    rw [foldlM_rafStep_cons_ok (rafStep_row_line _ rfl r h1 h2 h3)]
    rw [show ({ (⟨false, m, acc, cur⟩ : RafState) with
        frameLines := (⟨false, m, acc, cur⟩ : RafState).frameLines ++ [r] })
      = (⟨false, m, acc, cur ++ [r]⟩ : RafState) from rfl]
    rw [ih acc (cur ++ [r]) (fun x hx => h x (by simp [hx]))]
    simp

/-- Folding the decoder over one frame's rows followed by its separator rule
appends exactly that frame. -/
theorem frame_block_fold (m : VideoMetadata) (rows : List (List Char))
    (hrows : rows ≠ [])
    (hgood : ∀ r ∈ rows, r ≠ [] ∧ rstrip r = r ∧
      List.isPrefixOf (List.replicate 80 '=') r = false)
    (w : Nat) (hw : 80 ≤ w) (acc : List (List Char)) :
    List.foldlM rafStep (⟨false, m, acc, []⟩ : RafState)
      ((rows ++ [List.replicate w '=']).map (fun l => l ++ ['\n']))
      = Except.ok ⟨false, m, acc ++ [List.intercalate ['\n'] rows], []⟩ := by
  rw [List.map_append, List.foldlM_append]
  rw [frame_rows_fold m rows acc [] hgood]
  rw [exceptBind_ok]
  rw [List.map_cons, List.map_nil]
  rw [foldlM_rafStep_cons_ok (rafStep_sep_line_flush _ rfl (by simp [hrows]) w hw)]
  rfl

/-- Folding the decoder over all frame blocks appends every frame in order. -/
theorem frames_fold (m : VideoMetadata) (w : Nat) (hw : 80 ≤ w) :
    ∀ (frames : List (List (List Char))) (acc : List (List Char)),
      (∀ rows ∈ frames, rows ≠ [] ∧ ∀ r ∈ rows, r ≠ [] ∧ rstrip r = r ∧
        List.isPrefixOf (List.replicate 80 '=') r = false) →
      List.foldlM rafStep (⟨false, m, acc, []⟩ : RafState)
        (((frames.map (fun rows => rows ++ [List.replicate w '='])).flatten).map
          (fun l => l ++ ['\n']))
      = Except.ok ⟨false, m, acc ++ frames.map (List.intercalate ['\n']), []⟩ := by
  intro frames
  induction frames with
  | nil =>
    intro acc _
    simp only [List.map_nil, List.flatten_nil, List.append_nil]
    rfl
  | cons rows rest ih =>
    intro acc h
    obtain ⟨h1, h2⟩ := h rows (by simp)
    rw [List.map_cons, List.flatten_cons, List.map_append, List.foldlM_append]
    rw [frame_block_fold m rows h1 h2 w hw acc]
    rw [exceptBind_ok]
    rw [ih (acc ++ [List.intercalate ['\n'] rows])
      (fun x hx => h x (by simp [hx]))]
    simp

/-- Joining rows with newlines and appending a final newline equals the
concatenation of the newline-terminated
rows, for a non-empty row list. -/
theorem intercalate_newline_flatten :
    ∀ (rows : List (List Char)), rows ≠ [] →
      List.intercalate ['\n'] rows ++ ['\n']
        = (rows.map (fun r => r ++ ['\n'])).flatten := by
  intro rows
  induction rows with
  | nil => intro h; exact absurd rfl h
  | cons r rest ih =>
    intro _
    cases rest with
    | nil =>
      simp [List.intercalate]
    | cons y t =>
      have hstep : List.intercalate ['\n'] (r :: y :: t)
          = r ++ '\n' :: List.intercalate ['\n'] (y :: t) := by
        unfold List.intercalate
        rw [List.intersperse_cons_cons]
        simp
      rw [hstep, List.map_cons, List.flatten_cons, ← ih (by simp)]
      simp

/-- Evaluating `f` at positions `0 .. l.length - 1` of `l` is mapping `f`
over `l`. -/
theorem map_range_getD {α β : Type} (l : List α) (f : α → β) (d : α) :
    (List.range l.length).map (fun i => f (l.getD i d)) = l.map f := by
  induction l with
  | nil => rfl
  | cons a t ih =>
    rw [List.length_cons, List.range_succ_eq_map, List.map_cons, List.map_cons,
      List.map_map]
    have hcomp : List.map ((fun i => f ((a :: t).getD i d)) ∘ Nat.succ)
        (List.range t.length)
        = List.map (fun i => f (t.getD i d)) (List.range t.length) := by
      apply List.map_congr_left
      intro i _
      simp
    rw [hcomp, ih]
    simp

/-- The concatenation of the per-frame art strings is the concatenation of
all newline-terminated artifact lines (rows and separator rules). -/
theorem frameArts_flatten (width : Nat) :
    ∀ (frames : List (List (List Char))), (∀ rows ∈ frames, rows ≠ []) →
      (frames.map (fun rows => frameArt rows width)).flatten
        = (((frames.map (fun rows => rows ++ [List.replicate width '='])).flatten).map
            (fun l => l ++ ['\n'])).flatten := by
  intro frames
  induction frames with
  | nil =>
    intro _
    rfl
  | cons rows rest ih =>
    intro h
    rw [List.map_cons, List.flatten_cons, List.map_cons, List.flatten_cons,
      List.map_append, List.flatten_append]
    rw [ih (fun x hx => h x (by simp [hx]))]
    congr 1
    rw [List.map_append, List.flatten_append]
    unfold frameArt
    rw [← intercalate_newline_flatten rows (h rows (by simp))]
    simp

/-- C2 (amended): encoding frames and metadata with `write_ascii_to_file`
and decoding with `read_ascii_frames` is the identity, provided the render
width is at least 80 (so frame separators are recognised), every frame has at
least one row, every row is non-empty, newline-free, carries no trailing
whitespace and does not begin with 80 `'='`, and the resolution string is
non-empty, whitespace-trimmed and newline-free.  As stated the claim is
false: the decoder right-strips each line, so any row with trailing
whitespace (the ramp's brightest glyph is a space) is altered. -/
theorem artifact_round_trip (frames : List (List (List Char))) (res : List Char)
    (fps width : Nat) (hw : 80 ≤ width)
    (hres1 : res ≠ []) (hres2 : rstrip res = res) (hres3 : lstrip res = res)
    (hres4 : '\n' ∉ res)
    (hframes : ∀ rows ∈ frames, rows ≠ [] ∧ ∀ r ∈ rows, r ≠ [] ∧ rstrip r = r ∧
      '\n' ∉ r ∧ List.isPrefixOf (List.replicate 80 '=') r = false) :
    read_ascii_frames (write_ascii_to_file
        (arrivalsFor (List.range frames.length)
          (fun i => frameArt (frames.getD i []) width))
        frames.length res fps)
      = Except.ok (frames.map (List.intercalate ['\n']),
          ⟨some res, some fps⟩) := by
  obtain ⟨hsp1, hsp2⟩ := writerLoop_spec frames.length
    (fun i => frameArt (frames.getD i []) width) (List.range frames.length)
    [] [] 0 [] (by simp) (by simp) (by simp [dictLookup])
    (fun j hj => absurd hj (Nat.not_lt_zero j)) rfl (by simp)
  have hout : (writerLoop (arrivalsFor (List.range frames.length)
      (fun i => frameArt (frames.getD i []) width)) [] 0 frames.length []).2.2
      = frames.map (fun rows => frameArt rows width) :=
    hsp2.trans (map_range_getD frames (fun rows => frameArt rows width) [])
  have hfile : write_ascii_to_file
      (arrivalsFor (List.range frames.length)
        (fun i => frameArt (frames.getD i []) width)) frames.length res fps
      = (([("Video Resolution: ".data ++ res),
           ("Video FPS: ".data ++ natToChars fps),
           [], List.replicate 80 '=', []]
          ++ (frames.map (fun rows => rows ++ [List.replicate width '='])).flatten).map
            (fun l => l ++ ['\n'])).flatten := by
    unfold write_ascii_to_file
    rw [hout, List.map_append, List.flatten_append]
    congr 1
    · simp [artifactHeader]
    · exact frameArts_flatten width frames (fun rows hr => (hframes rows hr).1)
  rw [hfile]
  unfold read_ascii_frames
  have hnl : ∀ l ∈ ([("Video Resolution: ".data ++ res),
      ("Video FPS: ".data ++ natToChars fps),
      [], List.replicate 80 '=', []]
      ++ (frames.map (fun rows => rows ++ [List.replicate width '='])).flatten),
      '\n' ∉ l := by
    intro l hl
    rcases List.mem_append.mp hl with hm | hm
    · simp only [List.mem_cons, List.mem_singleton] at hm
      rcases hm with h | h | h | h | h | h
      · subst h
        intro hc
        rcases List.mem_append.mp hc with h2 | h2
        · revert h2
          decide
        · exact hres4 h2
      · subst h
        intro hc
        rcases List.mem_append.mp hc with h2 | h2
        · revert h2
          decide
        · have := natToChars_nonspace fps '\n' h2
          simp [pyIsSpace] at this
      · subst h
        simp
      · subst h
        intro hc
        have := List.eq_of_mem_replicate hc
        simp at this
      · subst h
        simp
      · exact absurd h (List.not_mem_nil l)
    · obtain ⟨chunk, hchunk, hlc⟩ := List.mem_flatten.mp hm
      obtain ⟨rows, hrows, hrc⟩ := List.mem_map.mp hchunk
      rw [← hrc] at hlc
      rcases List.mem_append.mp hlc with h2 | h2
      · exact ((hframes rows hrows).2 l h2).2.2.1
      · simp only [List.mem_singleton] at h2
        subst h2
        intro hc
        have := List.eq_of_mem_replicate hc
        simp at this
  rw [pyReadLines_flatten hnl]
  rw [List.map_append, List.foldlM_append]
  rw [header_fold res fps hres1 hres2 hres3]
  rw [exceptBind_ok]
  rw [frames_fold ⟨some res, some fps⟩ width hw frames []
    (fun rows hr => ⟨(hframes rows hr).1,
      fun r hrr => ⟨((hframes rows hr).2 r hrr).1,
        ((hframes rows hr).2 r hrr).2.1,
        ((hframes rows hr).2 r hrr).2.2.2⟩⟩)]
  rfl

/-- Counterexample to C2 as stated: a frame whose single row ends in a space
(`"a "`) comes back as `"a"` — the decoder's `rstrip` destroys trailing
whitespace, so encode-then-decode is not the identity. -/
theorem round_trip_trailing_space_counterexample :
    read_ascii_frames (write_ascii_to_file
        (arrivalsFor [0] (fun _ => frameArt [['a', ' ']] 80)) 1 "1x1".data 1)
      = Except.ok ([['a']], ⟨some "1x1".data, some 1⟩) ∧
    ([['a']] : List (List Char)) ≠ [List.intercalate ['\n'] [['a', ' ']]] :=
  ⟨by decide, by decide⟩

/-- Witness for C2's amended theorem: the spec's own scenario — frames
`"A"`, `"B"`, `"C"` with resolution `80x45` and fps 10 — round-trips. -/
theorem round_trip_scenario_witness :
    read_ascii_frames (write_ascii_to_file
        (arrivalsFor (List.range 3)
          (fun i => frameArt ([[['A']], [['B']], [['C']]].getD i []) 80))
        3 "80x45".data 10)
      = Except.ok ([[['A']], [['B']], [['C']]].map (List.intercalate ['\n']),
          ⟨some "80x45".data, some 10⟩) :=
  artifact_round_trip [[['A']], [['B']], [['C']]] "80x45".data 10 80 (by decide)
    (by decide) (by decide) (by decide) (by decide) (by decide)
